import Mathlib

/-!
Verification of the document-chunking / hierarchical node store core described
by the repository's specification.  The repository itself
(`retrieval_augmented_generation/VECTOR_STORE.ipynb`) only sequences calls into
an external RAG library (SentenceSplitter, docstore, storage persistence);
the components exercised by those calls are therefore modelled here from the
specification's own contract and the claims are settled against that model.
-/

namespace RagCore

/-- Modelled from the spec: error raised by the Splitter for a bad
configuration (`chunk_overlap >= chunk_size`, or zero `chunk_size`).
The splitter component itself lives in the external library
(`SentenceSplitter(chunk_size=600, chunk_overlap=90)` in the notebook). -/
inductive SplitError where
  | invalidConfiguration
deriving DecidableEq, Repr

/-- Modelled from the spec: fuel-indexed worker of the Splitter.  Emits the
next `csize` tokens as a chunk and recurses on the input with the first
`csize - ov` tokens removed, so consecutive chunks overlap in exactly `ov`
tokens; a remainder of at most `csize` tokens becomes the final chunk. -/
def splitterGo (csize ov : Nat) : Nat → List Nat → List (List Nat)
  | 0, toks => [toks]
  | fuel + 1, toks =>
      if toks.length ≤ csize then [toks]
      else toks.take csize :: splitterGo csize ov fuel (toks.drop (csize - ov))

/-- Modelled from the spec: the Splitter.  Pure function of the token list and
the `{chunk_size, chunk_overlap}` configuration; rejects
`chunk_size = 0` and `chunk_overlap ≥ chunk_size` with
`InvalidConfiguration`, otherwise returns the ordered chunk list. -/
def splitDocument (csize ov : Nat) (toks : List Nat) :
    Except SplitError (List (List Nat)) :=
  if csize = 0 ∨ csize ≤ ov then .error .invalidConfiguration
  else .ok (splitterGo csize ov toks.length toks)

/-- Modelled from the spec: relationship kinds of a node.  The notebook reads
them through opaque key codes (`key.value == '1'` selects SOURCE); the spec
maps them to the tagged enum {SOURCE, PARENT, PREVIOUS, NEXT, CHILD}. -/
inductive RelKind where
  | source
  | parent
  | previous
  | next
  | child
deriving DecidableEq, Repr

/-- Modelled from the spec: a node — a chunk of a document's text or the
synthetic whole-document root.  Carries a unique id, its text span, its
ordinal position, a copy of the document metadata, and a mapping of
relationship kind to target node id. -/
structure Node where
  id : Nat
  text : List Nat
  ordinal : Nat
  metadata : List (String × String)
  relationships : List (RelKind × Nat)
deriving DecidableEq, Repr

/-- Modelled from the spec: a document — unique id, full text, metadata. -/
structure Document where
  id : Nat
  text : List Nat
  metadata : List (String × String)
deriving DecidableEq, Repr

/-- Modelled from the spec: the Node Store — mapping from node id to node in
insertion order, the derived ref-doc mapping from each root id to the ordered
child node ids, and the next fresh id used for child allocation. -/
structure NodeStore where
  nodes : List Node
  refDocInfo : List (Nat × List Nat)
  nextId : Nat
deriving DecidableEq, Repr

def emptyStore : NodeStore := { nodes := [], refDocInfo := [], nextId := 0 }

/-- Modelled from the spec: store-level error taxonomy. -/
inductive StoreError where
  | duplicateDocument
  | nodeNotFound
deriving DecidableEq, Repr

def NodeStore.allIds (s : NodeStore) : List Nat := s.nodes.map (fun nd => nd.id)

def NodeStore.count (s : NodeStore) : Nat := s.nodes.length

/-- Modelled from the spec: `get(node_id)` — the node, or NodeNotFound. -/
def NodeStore.get (s : NodeStore) (i : Nat) : Except StoreError Node :=
  match s.nodes.find? (fun nd => nd.id == i) with
  | some nd => .ok nd
  | none => .error .nodeNotFound

/-- Modelled from the spec: `get_ref_doc_info(root_id)` — the ordered child
node ids under a root, or NodeNotFound for an unknown root id. -/
def NodeStore.getRefDocInfo (s : NodeStore) (r : Nat) : Except StoreError (List Nat) :=
  match s.refDocInfo.find? (fun q => q.1 == r) with
  | some q => .ok q.2
  | none => .error .nodeNotFound

/-- All target ids a node stores under the given relationship kind. -/
def relTargets (k : RelKind) (nd : Node) : List Nat :=
  (nd.relationships.filter (fun q => q.1 == k)).map (fun q => q.2)

def hasParent (nd : Node) : Bool :=
  nd.relationships.any (fun q => q.1 == RelKind.parent)

/-- Modelled from the spec: the synthetic root node of a document — SOURCE is
itself, no PARENT. -/
def mkRoot (doc : Document) : Node :=
  { id := doc.id, text := doc.text, ordinal := 0, metadata := doc.metadata,
    relationships := [(RelKind.source, doc.id)] }

/-- Modelled from the spec: the `i`-th child node of a document with `n`
chunks, ids allocated from `base`.  PARENT and SOURCE point at the root,
PREVIOUS/NEXT at the immediate siblings, and the document metadata is
copied onto the child. -/
def mkChild (doc : Document) (base n i : Nat) (chunk : List Nat) : Node :=
  { id := base + i, text := chunk, ordinal := i + 1, metadata := doc.metadata,
    relationships :=
      [(RelKind.source, doc.id), (RelKind.parent, doc.id)] ++
        (if i = 0 then [] else [(RelKind.previous, base + (i - 1))]) ++
        (if i + 1 = n then [] else [(RelKind.next, base + (i + 1))]) }

def childNodes (doc : Document) (base : Nat) (chunks : List (List Nat)) :
    List Node :=
  (List.range chunks.length).map
    (fun i => mkChild doc base chunks.length i (chunks.getD i []))

/-- First id available for the children of a freshly ingested document:
past every id the store has handed out and past the root id itself. -/
def ingestBase (doc : Document) (s : NodeStore) : Nat :=
  max s.nextId (doc.id + 1)

/-- The store produced by a successful ingestion. -/
def ingestStore (doc : Document) (chunks : List (List Nat)) (s : NodeStore) :
    NodeStore :=
  let children := childNodes doc (ingestBase doc s) chunks
  { nodes := s.nodes ++ mkRoot doc :: children,
    refDocInfo := s.refDocInfo ++ [(doc.id, children.map (fun nd => nd.id))],
    nextId := ingestBase doc s + chunks.length }

/-- The ids created by a successful ingestion: the root id then the child ids
in chunk order. -/
def ingestIds (doc : Document) (chunks : List (List Nat)) (s : NodeStore) :
    List Nat :=
  doc.id :: (childNodes doc (ingestBase doc s) chunks).map (fun nd => nd.id)

/-- Modelled from the spec: `ingest(document, chunks)` — registers one root
node and one child node per chunk in chunk order, linking PARENT/SOURCE to
the root and PREVIOUS/NEXT between siblings; fails with DuplicateDocument
when the document id is already present. -/
def ingest (doc : Document) (chunks : List (List Nat)) (s : NodeStore) :
    Except StoreError (NodeStore × List Nat) :=
  if s.nodes.any (fun nd => nd.id == doc.id) then .error .duplicateDocument
  else .ok (ingestStore doc chunks s, ingestIds doc chunks s)

/-- `ingest` as seen by a caller holding the store: on failure the caller's
store is returned untouched. -/
def ingestApply (doc : Document) (chunks : List (List Nat)) (s : NodeStore) :
    NodeStore × Except StoreError (List Nat) :=
  match ingest doc chunks s with
  | .ok (s', ids) => (s', .ok ids)
  | .error e => (s, .error e)

/-- Modelled from the spec: persistence error taxonomy. -/
inductive PersistError where
  | persistenceError
  | snapshotNotFound
  | snapshotCorrupt
deriving DecidableEq, Repr

/-- Modelled from the spec: the on-disk snapshot — a versioned manifest
(format version, node count, document count) plus the node data and the
ref-doc mapping. -/
structure Snapshot where
  version : Nat
  nodeCount : Nat
  docCount : Nat
  nodes : List Node
  refDoc : List (Nat × List Nat)
deriving DecidableEq, Repr

/-- Modelled from the spec: the target directory as the persistence layer
sees it — its current snapshot (none for an empty or nonexistent directory)
and whether the underlying I/O operations succeed. -/
structure Dir where
  contents : Option Snapshot
  ioOk : Bool
deriving DecidableEq, Repr

def serialize (s : NodeStore) : Snapshot :=
  { version := 1, nodeCount := s.nodes.length, docCount := s.refDocInfo.length,
    nodes := s.nodes, refDoc := s.refDocInfo }

/-- Modelled from the spec: `persist(store, directory)` — fails with
PersistenceError on I/O failure or when a snapshot is already present and
overwriting was not requested; otherwise writes the full snapshot.  The
directory is returned alongside the result, unchanged on failure. -/
def persist (s : NodeStore) (dir : Dir) (overwrite : Bool) :
    Except PersistError Unit × Dir :=
  if dir.ioOk = false then (.error .persistenceError, dir)
  else if dir.contents.isSome && !overwrite then (.error .persistenceError, dir)
  else (.ok (), { dir with contents := some (serialize s) })

def manifestOk (snap : Snapshot) : Bool :=
  snap.version == 1 && snap.nodeCount == snap.nodes.length &&
    snap.docCount == snap.refDoc.length

/-- Referential-integrity check run during reconstruction: no node id is
reused and every relationship target id exists in the snapshot. -/
def integrityOk (nodes : List Node) : Bool :=
  decide (nodes.map (fun nd => nd.id)).Nodup &&
    nodes.all (fun nd =>
      nd.relationships.all (fun q =>
        nodes.any (fun m => m.id == q.2)))

/-- Modelled from the spec: `load(directory)` — SnapshotNotFound when the
directory lacks a valid snapshot, SnapshotCorrupt when the integrity checks
fail, otherwise the reconstructed store. -/
def load (dir : Dir) : Except PersistError NodeStore :=
  match dir.contents with
  | none => .error .snapshotNotFound
  | some snap =>
      if manifestOk snap = false then .error .snapshotNotFound
      else if integrityOk snap.nodes = false then .error .snapshotCorrupt
      else .ok { nodes := snap.nodes, refDocInfo := snap.refDoc,
                 nextId := (snap.nodes.map (fun nd => nd.id)).foldr max 0 + 1 }

/-- Structural equality of stores as the round-trip guarantee states it: same
node set (ids, text, metadata, relationships) and same ref-doc mapping,
independent of in-memory iteration order. -/
def structEq (s t : NodeStore) : Prop :=
  s.nodes.Perm t.nodes ∧ s.refDocInfo.Perm t.refDocInfo

/-- Referential integrity of an in-memory store, as the spec's invariant
states it: every relationship target id exists in the store. -/
def RefIntegrity (s : NodeStore) : Prop :=
  ∀ nd ∈ s.nodes, ∀ q ∈ nd.relationships, q.2 ∈ s.allIds

/-- A store reachable through the public API: the empty store, extended by
successful ingestions. -/
inductive Reachable : NodeStore → Prop where
  | empty : Reachable emptyStore
  | step (s : NodeStore) (doc : Document) (chunks : List (List Nat))
      (s' : NodeStore) (ids : List Nat) (hs : Reachable s)
      (h : ingest doc chunks s = .ok (s', ids)) : Reachable s'

/-- The inductive invariant maintained by ingestion: ids are bounded by
`nextId` and pairwise distinct, relationships and the ref-doc mapping only
mention existing ids, and every child node's single SOURCE target is a
ref-doc root whose child list contains the node. -/
def StoreInv (s : NodeStore) : Prop :=
  (∀ nd ∈ s.nodes, nd.id < s.nextId) ∧
  s.allIds.Nodup ∧
  RefIntegrity s ∧
  (∀ q ∈ s.refDocInfo, q.1 ∈ s.allIds ∧ ∀ c ∈ q.2, c ∈ s.allIds) ∧
  (∀ nd ∈ s.nodes, hasParent nd = true →
    ∃ r cids, relTargets RelKind.source nd = [r] ∧
      s.getRefDocInfo r = .ok cids ∧ nd.id ∈ cids)

/-- Fallback node used with `List.getD` when indexing node lists. -/
def defaultNode : Node :=
  { id := 0, text := [], ordinal := 0, metadata := [], relationships := [] }

/-- A small sample document used to exercise the model on concrete input. -/
def sampleDoc : Document :=
  { id := 0, text := [10, 20], metadata := [("title", "sample")] }

/-- The store obtained by ingesting `sampleDoc` with two one-token chunks
into the empty store. -/
def sampleStore : NodeStore := ingestStore sampleDoc [[10], [20]] emptyStore

theorem splitterGo_ne_nil (csize ov fuel : Nat) (toks : List Nat) :
    splitterGo csize ov fuel toks ≠ [] := by
  cases fuel with
  | zero => simp [splitterGo]
  | succ n =>
      unfold splitterGo
      split <;> simp

theorem splitterGo_head (csize ov : Nat) :
    ∀ fuel toks, toks.length ≤ fuel ∨ toks.length ≤ csize →
      (splitterGo csize ov fuel toks).head? = some (toks.take csize) := by
  intro fuel toks h
  cases fuel with
  | zero =>
      have hle : toks.length ≤ csize := by
        rcases h with h | h
        · omega
        · exact h
      simp [splitterGo, List.take_of_length_le hle]
  | succ n =>
      unfold splitterGo
      by_cases hc : toks.length ≤ csize
      · simp [hc, List.take_of_length_le hc]
      · simp [hc]

/-- Dropping the overlap from every chunk and flattening reproduces the input
minus its first `ov` tokens. -/
theorem splitterGo_flatten_drop (csize ov : Nat) (hov : ov < csize) :
    ∀ fuel toks, toks.length ≤ fuel →
      ((splitterGo csize ov fuel toks).map (List.drop ov)).flatten =
        toks.drop ov := by
  intro fuel
  induction fuel with
  | zero =>
      intro toks h
      have : toks = [] := List.length_eq_zero.mp (Nat.le_zero.mp h)
      subst this
      simp [splitterGo]
  | succ n ih =>
      intro toks h
      unfold splitterGo
      by_cases hc : toks.length ≤ csize
      · simp [hc]
      · have hlen : (toks.drop (csize - ov)).length ≤ n := by
          have := List.length_drop (csize - ov) toks
          omega
        simp only [hc, if_false, List.map_cons, List.flatten_cons, ih _ hlen]
        have h1 : List.drop ov (List.drop (csize - ov) toks) =
            List.drop (csize - ov) (List.drop ov toks) := by
          rw [List.drop_drop, List.drop_drop, Nat.add_comm]
        have h2 : List.drop ov (List.take csize toks) =
            List.take (csize - ov) (List.drop ov toks) := by
          have := List.take_drop ov (csize - ov) toks
          rw [show ov + (csize - ov) = csize by omega] at this
          exact this.symm
        rw [h1, h2, List.take_append_drop]

/-- The chunks reconstruct the whole input: the head chunk followed by every
later chunk stripped of its leading overlap flattens back to the input. -/
theorem splitDocument_reconstruct (csize ov : Nat) (toks : List Nat)
    (cs : List (List Nat)) (h : splitDocument csize ov toks = .ok cs) :
    cs.headD [] ++ ((cs.drop 1).map (List.drop ov)).flatten = toks := by
  unfold splitDocument at h
  split at h
  · cases h
  · rename_i hcfg
    push_neg at hcfg
    obtain ⟨hc0, hov'⟩ := hcfg
    cases h
    by_cases hc : toks.length ≤ csize
    · rcases htl : toks.length with _ | m
      · have : toks = [] := List.length_eq_zero.mp htl
        subst this
        simp [splitterGo]
      · unfold splitterGo
        rw [if_pos hc]
        simp
    · obtain ⟨m, hm⟩ : ∃ m, toks.length = m + 1 := ⟨toks.length - 1, by omega⟩
      rw [hm]
      unfold splitterGo
      rw [if_neg hc]
      have hlen : (toks.drop (csize - ov)).length ≤ m := by
        have := List.length_drop (csize - ov) toks
        omega
      simp only [List.headD_cons, List.drop_succ_cons, List.drop_zero]
      rw [splitterGo_flatten_drop csize ov hov' m _ hlen]
      rw [List.drop_drop]
      rw [show csize - ov + ov = csize by omega]
      exact List.take_append_drop csize toks

theorem splitterGo_of_le (csize ov fuel : Nat) (toks : List Nat)
    (hc : toks.length ≤ csize) : splitterGo csize ov fuel toks = [toks] := by
  cases fuel with
  | zero => rfl
  | succ n =>
      unfold splitterGo
      rw [if_pos hc]

theorem splitterGo_step (csize ov n : Nat) (toks : List Nat)
    (hc : ¬toks.length ≤ csize) :
    splitterGo csize ov (n + 1) toks =
      toks.take csize :: splitterGo csize ov n (toks.drop (csize - ov)) := by
  unfold splitterGo
  rw [if_neg hc]
  cases n <;> rfl

/-- Every chunk except possibly the last has length exactly `csize`. -/
theorem splitterGo_middle_len (csize ov : Nat) (hov : ov < csize) :
    ∀ fuel toks, toks.length ≤ fuel →
      ∀ i, i + 1 < (splitterGo csize ov fuel toks).length →
        ((splitterGo csize ov fuel toks).getD i []).length = csize := by
  intro fuel
  induction fuel with
  | zero =>
      intro toks h i hi
      have : toks = [] := List.length_eq_zero.mp (Nat.le_zero.mp h)
      subst this
      simp [splitterGo] at hi
  | succ n ih =>
      intro toks h i hi
      by_cases hc : toks.length ≤ csize
      · rw [splitterGo_of_le csize ov _ _ hc] at hi
        simp at hi
      · have hstep := splitterGo_step csize ov n toks hc
        rw [hstep] at hi ⊢
        cases i with
        | zero =>
            simp only [List.getD_cons_zero, List.length_take]
            omega
        | succ j =>
            simp only [List.getD_cons_succ]
            have hlen : (toks.drop (csize - ov)).length ≤ n := by
              have := List.length_drop (csize - ov) toks
              omega
            refine ih _ hlen j ?_
            simpa using hi

/-- Adjacent chunks agree on the overlap: dropping the stride from a middle
chunk gives the leading `ov` tokens of the next chunk. -/
theorem splitterGo_adjacent (csize ov : Nat) (hov : ov < csize) :
    ∀ fuel toks, toks.length ≤ fuel →
      ∀ i, i + 1 < (splitterGo csize ov fuel toks).length →
        ((splitterGo csize ov fuel toks).getD i []).drop (csize - ov) =
          ((splitterGo csize ov fuel toks).getD (i + 1) []).take ov := by
  intro fuel
  induction fuel with
  | zero =>
      intro toks h i hi
      have : toks = [] := List.length_eq_zero.mp (Nat.le_zero.mp h)
      subst this
      simp [splitterGo] at hi
  | succ n ih =>
      intro toks h i hi
      by_cases hc : toks.length ≤ csize
      · rw [splitterGo_of_le csize ov _ _ hc] at hi
        simp at hi
      · have hstep := splitterGo_step csize ov n toks hc
        have hlen : (toks.drop (csize - ov)).length ≤ n := by
          have := List.length_drop (csize - ov) toks
          omega
        rw [hstep] at hi ⊢
        cases i with
        | zero =>
            simp only [List.getD_cons_zero, List.getD_cons_succ]
            have hhead : (splitterGo csize ov n (toks.drop (csize - ov))).head? =
                some ((toks.drop (csize - ov)).take csize) :=
              splitterGo_head csize ov n _ (Or.inl hlen)
            have hne := splitterGo_ne_nil csize ov n (toks.drop (csize - ov))
            rcases hrest : splitterGo csize ov n (toks.drop (csize - ov)) with _ | ⟨r, rs⟩
            · exact absurd hrest hne
            · rw [hrest] at hhead
              simp only [List.head?_cons, Option.some_inj] at hhead
              subst hhead
              simp only [List.getD_cons_zero]
              have h1 : List.drop (csize - ov) (List.take csize toks) =
                  List.take ov (List.drop (csize - ov) toks) := by
                have := List.take_drop (csize - ov) ov toks
                rw [show csize - ov + ov = csize by omega] at this
                exact this.symm
              rw [h1, List.take_take, Nat.min_eq_left (Nat.le_of_lt hov)]
        | succ j =>
            simp only [List.getD_cons_succ]
            refine ih _ hlen j ?_
            simpa using hi

/-- Every chunk of a text longer than the overlap is itself longer than the
overlap. -/
theorem splitterGo_chunk_gt (csize ov : Nat) (hov : ov < csize) :
    ∀ fuel toks, toks.length ≤ fuel → ov < toks.length →
      ∀ c ∈ splitterGo csize ov fuel toks, ov < c.length := by
  intro fuel
  induction fuel with
  | zero =>
      intro toks h hpos
      omega
  | succ n ih =>
      intro toks h hpos c hc
      by_cases hle : toks.length ≤ csize
      · rw [splitterGo_of_le csize ov _ _ hle] at hc
        simp at hc
        subst hc
        exact hpos
      · have hstep := splitterGo_step csize ov n toks hle
        rw [hstep] at hc
        rcases List.mem_cons.mp hc with hc | hc
        · subst hc
          simp only [List.length_take]
          omega
        · have hlen : (toks.drop (csize - ov)).length ≤ n := by
            have := List.length_drop (csize - ov) toks
            omega
          have hpos' : ov < (toks.drop (csize - ov)).length := by
            have := List.length_drop (csize - ov) toks
            omega
          exact ih _ hlen hpos' c hc

/-- Total chunk length equals input length plus one overlap per chunk
boundary. -/
theorem splitterGo_sum_len (csize ov : Nat) (hov : ov < csize) :
    ∀ fuel toks, toks.length ≤ fuel →
      ((splitterGo csize ov fuel toks).map List.length).sum =
        toks.length + ((splitterGo csize ov fuel toks).length - 1) * ov := by
  intro fuel
  induction fuel with
  | zero =>
      intro toks h
      have : toks = [] := List.length_eq_zero.mp (Nat.le_zero.mp h)
      subst this
      simp [splitterGo]
  | succ n ih =>
      intro toks h
      by_cases hc : toks.length ≤ csize
      · rw [splitterGo_of_le csize ov _ _ hc]
        simp
      · have hstep := splitterGo_step csize ov n toks hc
        have hlen : (toks.drop (csize - ov)).length ≤ n := by
          have := List.length_drop (csize - ov) toks
          omega
        rw [hstep]
        simp only [List.map_cons, List.sum_cons, List.length_cons]
        rw [ih _ hlen]
        have hne := splitterGo_ne_nil csize ov n (toks.drop (csize - ov))
        obtain ⟨k, hk⟩ : ∃ k, (splitterGo csize ov n (toks.drop (csize - ov))).length
            = k + 1 := by
          rcases hrest : splitterGo csize ov n (toks.drop (csize - ov)) with _ | ⟨r, rs⟩
          · exact absurd hrest hne
          · exact ⟨rs.length, by simp⟩
        rw [hk]
        simp only [Nat.add_sub_cancel, List.length_drop, List.length_take]
        rw [Nat.succ_mul]
        generalize k * ov = t
        omega

theorem splitDocument_ok (csize ov : Nat) (toks : List Nat)
    (cs : List (List Nat)) (h : splitDocument csize ov toks = .ok cs) :
    csize ≠ 0 ∧ ov < csize ∧ cs = splitterGo csize ov toks.length toks := by
  unfold splitDocument at h
  split at h
  · cases h
  · rename_i hcfg
    push_neg at hcfg
    cases h
    exact ⟨hcfg.1, hcfg.2, rfl⟩

theorem splitDocument_two_chunks (csize ov : Nat) (toks : List Nat)
    (cs : List (List Nat)) (h : splitDocument csize ov toks = .ok cs)
    (h2 : 2 ≤ cs.length) : csize < toks.length := by
  obtain ⟨hc0, hov, hcs⟩ := splitDocument_ok csize ov toks cs h
  by_contra hle
  rw [splitterGo_of_le csize ov _ _ (by omega)] at hcs
  subst hcs
  simp at h2

theorem mkChild_id (doc : Document) (base n i : Nat) (c : List Nat) :
    (mkChild doc base n i c).id = base + i := rfl

theorem length_childNodes (doc : Document) (base : Nat)
    (chunks : List (List Nat)) :
    (childNodes doc base chunks).length = chunks.length := by
  simp [childNodes]

theorem childNodes_map_id (doc : Document) (base : Nat)
    (chunks : List (List Nat)) :
    (childNodes doc base chunks).map (fun nd => nd.id) =
      (List.range chunks.length).map (fun i => base + i) := by
  unfold childNodes
  rw [List.map_map]
  rfl

theorem childNodes_getD (doc : Document) (base : Nat) (chunks : List (List Nat))
    (i : Nat) (hi : i < chunks.length) (d : Node) :
    (childNodes doc base chunks).getD i d =
      mkChild doc base chunks.length i (chunks.getD i []) := by
  unfold childNodes
  rw [List.getD_eq_getElem _ _ (by simpa using hi)]
  simp

theorem mem_childNodes (doc : Document) (base : Nat) (chunks : List (List Nat))
    (nd : Node) :
    nd ∈ childNodes doc base chunks ↔
      ∃ i, i < chunks.length ∧
        nd = mkChild doc base chunks.length i (chunks.getD i []) := by
  unfold childNodes
  simp only [List.mem_map, List.mem_range]
  constructor
  · rintro ⟨i, hi, rfl⟩
    exact ⟨i, hi, rfl⟩
  · rintro ⟨i, hi, rfl⟩
    exact ⟨i, hi, rfl⟩

theorem mkChild_targets (doc : Document) (base n i : Nat) (c : List Nat) :
    relTargets RelKind.source (mkChild doc base n i c) = [doc.id] ∧
    relTargets RelKind.parent (mkChild doc base n i c) = [doc.id] ∧
    relTargets RelKind.previous (mkChild doc base n i c) =
      (if i = 0 then [] else [base + (i - 1)]) ∧
    relTargets RelKind.next (mkChild doc base n i c) =
      (if i + 1 = n then [] else [base + (i + 1)]) := by
  simp only [relTargets, mkChild]
  by_cases h0 : i = 0
  · by_cases hn : i + 1 = n
    · simp only [if_pos h0, if_pos hn]
      exact ⟨rfl, rfl, rfl, rfl⟩
    · simp only [if_pos h0, if_neg hn]
      exact ⟨rfl, rfl, rfl, rfl⟩
  · by_cases hn : i + 1 = n
    · simp only [if_neg h0, if_pos hn]
      exact ⟨rfl, rfl, rfl, rfl⟩
    · simp only [if_neg h0, if_neg hn]
      exact ⟨rfl, rfl, rfl, rfl⟩

theorem hasParent_mkChild (doc : Document) (base n i : Nat) (c : List Nat) :
    hasParent (mkChild doc base n i c) = true := rfl

theorem hasParent_mkRoot (doc : Document) : hasParent (mkRoot doc) = false := rfl

theorem relTargets_mkRoot_source (doc : Document) :
    relTargets RelKind.source (mkRoot doc) = [doc.id] := rfl

theorem relTargets_mkRoot_parent (doc : Document) :
    relTargets RelKind.parent (mkRoot doc) = [] := rfl

theorem mem_mkChild_rel (doc : Document) (base n i : Nat) (c : List Nat)
    (q : RelKind × Nat) :
    q ∈ (mkChild doc base n i c).relationships ↔
      q = (RelKind.source, doc.id) ∨ q = (RelKind.parent, doc.id) ∨
        (i ≠ 0 ∧ q = (RelKind.previous, base + (i - 1))) ∨
        (i + 1 ≠ n ∧ q = (RelKind.next, base + (i + 1))) := by
  simp only [mkChild, List.mem_append, List.mem_cons, List.mem_singleton,
    List.not_mem_nil]
  by_cases h0 : i = 0
  · by_cases hn : i + 1 = n
    · simp [if_pos h0, if_pos hn, h0, hn]
      tauto
    · simp [if_pos h0, if_neg hn, h0, hn]
      tauto
  · by_cases hn : i + 1 = n
    · simp [if_neg h0, if_pos hn, h0, hn]
      tauto
    · simp [if_neg h0, if_neg hn, h0, hn]
      tauto

theorem ingest_eq_ok (doc : Document) (chunks : List (List Nat))
    (s s' : NodeStore) (ids : List Nat)
    (h : ingest doc chunks s = .ok (s', ids)) :
    s.nodes.any (fun nd => nd.id == doc.id) = false ∧
      s' = ingestStore doc chunks s ∧ ids = ingestIds doc chunks s := by
  unfold ingest at h
  split at h
  · cases h
  · rename_i hany
    cases h
    exact ⟨by simpa using hany, rfl, rfl⟩

theorem ingest_id_not_mem (doc : Document) (chunks : List (List Nat))
    (s s' : NodeStore) (ids : List Nat)
    (h : ingest doc chunks s = .ok (s', ids)) : doc.id ∉ s.allIds := by
  obtain ⟨hany, -, -⟩ := ingest_eq_ok doc chunks s s' ids h
  rw [List.any_eq_false] at hany
  intro hmem
  unfold NodeStore.allIds at hmem
  obtain ⟨nd, hnd, hid⟩ := List.mem_map.mp hmem
  exact hany nd hnd (by simpa using hid)

theorem ingestStore_allIds (doc : Document) (chunks : List (List Nat))
    (s : NodeStore) :
    (ingestStore doc chunks s).allIds =
      s.allIds ++ doc.id ::
        (List.range chunks.length).map (fun i => ingestBase doc s + i) := by
  simp [ingestStore, NodeStore.allIds, childNodes_map_id, mkRoot]

theorem ingestBase_lt (doc : Document) (s : NodeStore) :
    s.nextId ≤ ingestBase doc s ∧ doc.id < ingestBase doc s :=
  ⟨Nat.le_max_left _ _,
    Nat.lt_of_lt_of_le (Nat.lt_succ_self _) (Nat.le_max_right _ _)⟩

theorem mem_ingestStore_nodes (doc : Document) (chunks : List (List Nat))
    (s : NodeStore) (nd : Node) :
    nd ∈ (ingestStore doc chunks s).nodes ↔
      nd ∈ s.nodes ∨ nd = mkRoot doc ∨
        nd ∈ childNodes doc (ingestBase doc s) chunks := by
  simp [ingestStore]

theorem refDocInfo_ingestStore (doc : Document) (chunks : List (List Nat))
    (s : NodeStore) :
    (ingestStore doc chunks s).refDocInfo =
      s.refDocInfo ++
        [(doc.id, (List.range chunks.length).map
          (fun i => ingestBase doc s + i))] := by
  simp [ingestStore, childNodes_map_id]

theorem mem_ingestStore_allIds (doc : Document) (chunks : List (List Nat))
    (s : NodeStore) (x : Nat) :
    x ∈ (ingestStore doc chunks s).allIds ↔
      x ∈ s.allIds ∨ x = doc.id ∨
        ∃ i, i < chunks.length ∧ x = ingestBase doc s + i := by
  rw [ingestStore_allIds]
  simp only [List.mem_append, List.mem_cons, List.mem_map, List.mem_range]
  constructor
  · rintro (hx | hx | ⟨i, hi, rfl⟩)
    · exact Or.inl hx
    · exact Or.inr (Or.inl hx)
    · exact Or.inr (Or.inr ⟨i, hi, rfl⟩)
  · rintro (hx | hx | ⟨i, hi, rfl⟩)
    · exact Or.inl hx
    · exact Or.inr (Or.inl hx)
    · exact Or.inr (Or.inr ⟨i, hi, rfl⟩)

theorem mem_allIds_iff (s : NodeStore) (x : Nat) :
    x ∈ s.allIds ↔ ∃ nd ∈ s.nodes, nd.id = x := by
  unfold NodeStore.allIds
  simp [List.mem_map]

theorem getRefDocInfo_ingestStore_old (doc : Document)
    (chunks : List (List Nat)) (s : NodeStore) (r : Nat) (cids : List Nat)
    (h : s.getRefDocInfo r = .ok cids) :
    (ingestStore doc chunks s).getRefDocInfo r = .ok cids := by
  unfold NodeStore.getRefDocInfo at h ⊢
  rw [refDocInfo_ingestStore, List.find?_append]
  rcases hf : s.refDocInfo.find? (fun q => q.1 == r) with _ | q
  · rw [hf] at h
    cases h
  · rw [hf] at h ⊢
    simp only [Option.or_some]
    simpa using h

theorem getRefDocInfo_ingestStore_new (doc : Document)
    (chunks : List (List Nat)) (s : NodeStore)
    (hnot : doc.id ∉ s.allIds)
    (hkeys : ∀ q ∈ s.refDocInfo, q.1 ∈ s.allIds) :
    (ingestStore doc chunks s).getRefDocInfo doc.id =
      .ok ((List.range chunks.length).map (fun i => ingestBase doc s + i)) := by
  unfold NodeStore.getRefDocInfo
  rw [refDocInfo_ingestStore, List.find?_append]
  have hnone : s.refDocInfo.find? (fun q => q.1 == doc.id) = none := by
    rw [List.find?_eq_none]
    intro q hq
    simp only [beq_iff_eq]
    intro hqe
    exact hnot (hqe ▸ hkeys q hq)
  rw [hnone]
  simp

/-- Ingestion preserves the store invariant. -/
theorem StoreInv_ingest (doc : Document) (chunks : List (List Nat))
    (s s' : NodeStore) (ids : List Nat) (hinv : StoreInv s)
    (h : ingest doc chunks s = .ok (s', ids)) : StoreInv s' := by
  obtain ⟨hbound, hnodup, href, hrefdoc, hchild⟩ := hinv
  have hnot : doc.id ∉ s.allIds := ingest_id_not_mem doc chunks s s' ids h
  obtain ⟨hany, hs', hids⟩ := ingest_eq_ok doc chunks s s' ids h
  subst hs'
  obtain ⟨hb1, hb2⟩ := ingestBase_lt doc s
  have hnext : (ingestStore doc chunks s).nextId =
      ingestBase doc s + chunks.length := rfl
  refine ⟨?_, ?_, ?_, ?_, ?_⟩
  · -- ids bounded by nextId
    intro nd hnd
    rw [hnext]
    rcases (mem_ingestStore_nodes doc chunks s nd).mp hnd with hnd | hnd | hnd
    · have := hbound nd hnd
      omega
    · subst hnd
      show doc.id < _
      omega
    · obtain ⟨i, hi, rfl⟩ := (mem_childNodes doc _ chunks nd).mp hnd
      rw [mkChild_id]
      omega
  · -- no node id reused
    rw [ingestStore_allIds, List.nodup_append]
    refine ⟨hnodup, ?_, ?_⟩
    · rw [List.nodup_cons]
      constructor
      · intro hm
        obtain ⟨i, hi, hx⟩ := List.mem_map.mp hm
        rw [List.mem_range] at hi
        omega
      · exact (List.nodup_range _).map (fun a b hab => by omega)
    · intro x hx hx'
      have hxlt : x < s.nextId := by
        obtain ⟨nd, hnd, rfl⟩ := (mem_allIds_iff s x).mp hx
        exact hbound nd hnd
      rcases List.mem_cons.mp hx' with rfl | hx'
      · exact hnot hx
      · obtain ⟨i, hi, hix⟩ := List.mem_map.mp hx'
        omega
  · -- referential integrity
    intro nd hnd q hq
    rw [mem_ingestStore_allIds]
    rcases (mem_ingestStore_nodes doc chunks s nd).mp hnd with hnd | hnd | hnd
    · exact Or.inl (href nd hnd q hq)
    · subst hnd
      have : q = (RelKind.source, doc.id) := by simpa [mkRoot] using hq
      subst this
      exact Or.inr (Or.inl rfl)
    · obtain ⟨i, hi, rfl⟩ := (mem_childNodes doc _ chunks nd).mp hnd
      rw [mem_mkChild_rel] at hq
      rcases hq with rfl | rfl | ⟨h0, rfl⟩ | ⟨hn, rfl⟩
      · exact Or.inr (Or.inl rfl)
      · exact Or.inr (Or.inl rfl)
      · exact Or.inr (Or.inr ⟨i - 1, by omega, rfl⟩)
      · exact Or.inr (Or.inr ⟨i + 1, by omega, rfl⟩)
  · -- ref-doc mapping only mentions existing ids
    intro q hq
    rw [refDocInfo_ingestStore] at hq
    rcases List.mem_append.mp hq with hq | hq
    · obtain ⟨hk, hm⟩ := hrefdoc q hq
      refine ⟨(mem_ingestStore_allIds doc chunks s _).mpr (Or.inl hk), ?_⟩
      intro c hc
      exact (mem_ingestStore_allIds doc chunks s _).mpr
        (Or.inl (hm c hc))
    · have hq' : q = (doc.id,
          (List.range chunks.length).map (fun i => ingestBase doc s + i)) := by
        simpa using hq
      subst hq'
      constructor
      · exact (mem_ingestStore_allIds doc chunks s _).mpr (Or.inr (Or.inl rfl))
      · intro c hc
        obtain ⟨i, hi, rfl⟩ := List.mem_map.mp hc
        rw [List.mem_range] at hi
        exact (mem_ingestStore_allIds doc chunks s _).mpr
          (Or.inr (Or.inr ⟨i, hi, rfl⟩))
  · -- every child's SOURCE is a ref-doc root listing the child
    intro nd hnd hp
    rcases (mem_ingestStore_nodes doc chunks s nd).mp hnd with hnd | hnd | hnd
    · obtain ⟨r, cids, h1, h2, h3⟩ := hchild nd hnd hp
      exact ⟨r, cids, h1,
        getRefDocInfo_ingestStore_old doc chunks s r cids h2, h3⟩
    · subst hnd
      rw [hasParent_mkRoot] at hp
      cases hp
    · obtain ⟨i, hi, rfl⟩ := (mem_childNodes doc _ chunks nd).mp hnd
      refine ⟨doc.id,
        (List.range chunks.length).map (fun j => ingestBase doc s + j),
        (mkChild_targets doc _ _ i _).1,
        getRefDocInfo_ingestStore_new doc chunks s hnot
          (fun q hq => (hrefdoc q hq).1), ?_⟩
      rw [mkChild_id]
      exact List.mem_map.mpr ⟨i, List.mem_range.mpr hi, rfl⟩

/-- Every reachable store satisfies the invariant. -/
theorem Reachable_StoreInv (s : NodeStore) (hs : Reachable s) : StoreInv s := by
  induction hs with
  | empty =>
      refine ⟨?_, ?_, ?_, ?_, ?_⟩ <;>
        simp [emptyStore, NodeStore.allIds, RefIntegrity]
  | step s doc chunks s' ids hs h ih =>
      exact StoreInv_ingest doc chunks s s' ids ih h

theorem find?_map_range (f : Nat → Node) (t i n : Nat) (hi : i < n)
    (hid : ∀ j, (f j).id = t + j) :
    ((List.range n).map f).find? (fun nd => nd.id == t + i) = some (f i) := by
  induction n with
  | zero => omega
  | succ m ih =>
      rw [List.range_succ, List.map_append, List.find?_append]
      by_cases him : i < m
      · rw [ih him]
        rfl
      · have hieq : i = m := by omega
        have hnone :
            ((List.range m).map f).find? (fun nd => nd.id == t + i) = none := by
          rw [List.find?_eq_none]
          intro x hx
          obtain ⟨j, hj, rfl⟩ := List.mem_map.mp hx
          rw [List.mem_range] at hj
          simp only [hid, beq_iff_eq]
          omega
        rw [hnone, Option.none_or]
        simp [hid, hieq]

/-- Looking up a freshly created child id in the post-ingestion store finds
exactly the corresponding child node. -/
theorem get_ingestStore_child (doc : Document) (chunks : List (List Nat))
    (s : NodeStore) (i : Nat) (hi : i < chunks.length)
    (hbound : ∀ nd ∈ s.nodes, nd.id < s.nextId) :
    (ingestStore doc chunks s).get (ingestBase doc s + i) =
      .ok (mkChild doc (ingestBase doc s) chunks.length i (chunks.getD i [])) := by
  obtain ⟨hb1, hb2⟩ := ingestBase_lt doc s
  unfold NodeStore.get
  have hnodes : (ingestStore doc chunks s).nodes =
      s.nodes ++ mkRoot doc :: childNodes doc (ingestBase doc s) chunks := rfl
  rw [hnodes, List.find?_append]
  have hnone : s.nodes.find? (fun nd => nd.id == ingestBase doc s + i) = none := by
    rw [List.find?_eq_none]
    intro nd hnd
    have := hbound nd hnd
    simp only [beq_iff_eq]
    omega
  rw [hnone, Option.none_or]
  rw [List.find?_cons_of_neg]
  · rw [childNodes]
    rw [find?_map_range _ (ingestBase doc s) i chunks.length hi (fun j => rfl)]
  · show ¬((mkRoot doc).id == ingestBase doc s + i) = true
    simp only [mkRoot, beq_iff_eq]
    omega

theorem integrityOk_spec (nodes : List Node) (h : integrityOk nodes = true) :
    ∀ nd ∈ nodes, ∀ q ∈ nd.relationships,
      q.2 ∈ nodes.map (fun m => m.id) := by
  unfold integrityOk at h
  rw [Bool.and_eq_true] at h
  obtain ⟨-, h⟩ := h
  rw [List.all_eq_true] at h
  intro nd hnd q hq
  have h1 := h nd hnd
  rw [List.all_eq_true] at h1
  have h2 := h1 q hq
  rw [List.any_eq_true] at h2
  obtain ⟨m, hm, hmq⟩ := h2
  rw [beq_iff_eq] at hmq
  exact List.mem_map.mpr ⟨m, hm, hmq⟩

theorem integrityOk_nodup (nodes : List Node) (h : integrityOk nodes = true) :
    (nodes.map (fun nd => nd.id)).Nodup := by
  unfold integrityOk at h
  rw [Bool.and_eq_true] at h
  exact of_decide_eq_true h.1

theorem sampleStore_reachable : Reachable sampleStore :=
  .step emptyStore sampleDoc [[10], [20]] sampleStore
    (ingestIds sampleDoc [[10], [20]] emptyStore) .empty rfl

/-- C8: loading from a directory that is empty or nonexistent (no snapshot
present) fails with SnapshotNotFound. -/
theorem load_missing_snapshot (dir : Dir) (h : dir.contents = none) :
    load dir = .error .snapshotNotFound := by
  simp [load, h]

theorem load_missing_snapshot_witness :
    load { contents := none, ioOk := true } = .error .snapshotNotFound :=
  load_missing_snapshot { contents := none, ioOk := true } rfl

/-- C9: `persist` fails with PersistenceError exactly when an I/O failure
occurs or a snapshot is already present without overwrite being requested;
in every other case the full snapshot is written, and on failure the
directory is left exactly as it was, so no partial snapshot is observable
to a subsequent `load`. -/
theorem persist_error_conditions (s : NodeStore) (dir : Dir) (ow : Bool) :
    ((persist s dir ow).1 = .error .persistenceError ↔
      (dir.ioOk = false ∨ (dir.contents.isSome = true ∧ ow = false))) ∧
    ((persist s dir ow).1 = .ok () →
      (persist s dir ow).2.contents = some (serialize s)) ∧
    ((persist s dir ow).1 = .error .persistenceError →
      (persist s dir ow).2 = dir) := by
  rcases dir with ⟨contents, ioOk⟩
  cases hio : ioOk <;> rcases contents with _ | snap <;> cases ow <;>
    simp [persist]

/-- C5: re-ingesting a document id that already has a root node in a
reachable store fails with DuplicateDocument and leaves the caller's store
unchanged. -/
theorem duplicate_ingest_rejected (s : NodeStore) (hs : Reachable s)
    (doc : Document) (chunks : List (List Nat))
    (hroot : ∃ q ∈ s.refDocInfo, q.1 = doc.id) :
    ingestApply doc chunks s = (s, .error .duplicateDocument) := by
  obtain ⟨-, -, -, hrefdoc, -⟩ := Reachable_StoreInv s hs
  obtain ⟨q, hq, hqid⟩ := hroot
  have hid : doc.id ∈ s.allIds := hqid ▸ (hrefdoc q hq).1
  have hany : s.nodes.any (fun nd => nd.id == doc.id) = true := by
    rw [List.any_eq_true]
    obtain ⟨nd, hnd, hnid⟩ := (mem_allIds_iff s doc.id).mp hid
    exact ⟨nd, hnd, by simpa using hnid⟩
  simp [ingestApply, ingest, hany]

theorem duplicate_ingest_rejected_witness :
    ingestApply { id := 0, text := [99], metadata := [] } [[99]] sampleStore =
      (sampleStore, .error .duplicateDocument) :=
  duplicate_ingest_rejected sampleStore sampleStore_reachable
    { id := 0, text := [99], metadata := [] } [[99]]
    ⟨(0, [1, 2]), by decide, rfl⟩

/-- C1: persisting a reachable (hence well-formed) store to a writable
directory and loading it back yields a store structurally equal to the
original: same node set, same relationships, same metadata, same ref-doc
mapping. -/
theorem persist_load_round_trip (s : NodeStore) (hs : Reachable s)
    (dir : Dir) (ow : Bool) (hio : dir.ioOk = true)
    (hfresh : dir.contents = none ∨ ow = true) :
    ∃ s', load (persist s dir ow).2 = .ok s' ∧ structEq s' s := by
  obtain ⟨hbound, hnodup, href, -, -⟩ := Reachable_StoreInv s hs
  have hpersist : (persist s dir ow).2 =
      { dir with contents := some (serialize s) } := by
    unfold persist
    rw [if_neg (by simp [hio])]
    rcases hfresh with hf | hf
    · rw [if_neg (by simp [hf])]
    · rw [if_neg (by simp [hf])]
  rw [hpersist]
  have hman : manifestOk (serialize s) = true := by
    simp [manifestOk, serialize]
  have hint : integrityOk (serialize s).nodes = true := by
    unfold integrityOk serialize
    rw [Bool.and_eq_true]
    constructor
    · exact decide_eq_true hnodup
    · rw [List.all_eq_true]
      intro nd hnd
      rw [List.all_eq_true]
      intro q hq
      have hmem := href nd hnd q hq
      rw [mem_allIds_iff] at hmem
      obtain ⟨m, hm, hmid⟩ := hmem
      rw [List.any_eq_true]
      exact ⟨m, hm, by simpa using hmid⟩
  refine ⟨{ nodes := s.nodes, refDocInfo := s.refDocInfo,
            nextId := (s.nodes.map (fun nd => nd.id)).foldr max 0 + 1 },
    ?_, List.Perm.refl _, List.Perm.refl _⟩
  simp only [load]
  rw [hman, hint]
  simp [serialize]

theorem persist_load_round_trip_witness :
    ∃ s', load (persist sampleStore { contents := none, ioOk := true }
        false).2 = .ok s' ∧ structEq s' sampleStore :=
  persist_load_round_trip sampleStore sampleStore_reachable
    { contents := none, ioOk := true } false rfl (Or.inl rfl)

/-- C2: for every accepted configuration (`0 < csize`, `ov < csize`) the
Splitter returns ordered chunks where every adjacent pair shares exactly
`ov` tokens at the boundary (the earlier chunk's trailing `ov` tokens equal
the next chunk's leading `ov` tokens), every input token appears in some
chunk, and the total covered span accounting for overlap equals the input
length. -/
theorem splitter_overlap_and_coverage (csize ov : Nat) (toks : List Nat)
    (cs : List (List Nat)) (h : splitDocument csize ov toks = .ok cs) :
    (∀ i, i + 1 < cs.length →
        (cs.getD i []).length = csize ∧
        ov ≤ (cs.getD (i + 1) []).length ∧
        (cs.getD i []).drop ((cs.getD i []).length - ov) =
          (cs.getD (i + 1) []).take ov) ∧
    (∀ x ∈ toks, ∃ c ∈ cs, x ∈ c) ∧
    (cs.map List.length).sum = toks.length + (cs.length - 1) * ov := by
  have hrec := splitDocument_reconstruct csize ov toks cs h
  obtain ⟨hc0, hov, hcs⟩ := splitDocument_ok csize ov toks cs h
  subst hcs
  refine ⟨?_, ?_, ?_⟩
  · intro i hi
    have hmid := splitterGo_middle_len csize ov hov toks.length toks le_rfl i hi
    refine ⟨hmid, ?_, ?_⟩
    · have hgt : csize < toks.length :=
        splitDocument_two_chunks csize ov toks _ h (by omega)
      have hmem : (splitterGo csize ov toks.length toks).getD (i + 1) [] ∈
          splitterGo csize ov toks.length toks := by
        rw [List.getD_eq_getElem _ _ hi]
        exact List.getElem_mem hi
      have := splitterGo_chunk_gt csize ov hov toks.length toks le_rfl
        (by omega) _ hmem
      omega
    · rw [hmid]
      exact splitterGo_adjacent csize ov hov toks.length toks le_rfl i hi
  · intro x hx
    rw [← hrec] at hx
    rcases List.mem_append.mp hx with hx | hx
    · have hne := splitterGo_ne_nil csize ov toks.length toks
      rcases hsp : splitterGo csize ov toks.length toks with _ | ⟨c, rest⟩
      · exact absurd hsp hne
      · rw [hsp] at hx
        exact ⟨c, List.mem_cons_self c rest, by simpa using hx⟩
    · obtain ⟨l, hl, hxl⟩ := List.mem_flatten.mp hx
      obtain ⟨c, hc, rfl⟩ := List.mem_map.mp hl
      exact ⟨c, List.mem_of_mem_drop hc, List.mem_of_mem_drop hxl⟩
  · exact splitterGo_sum_len csize ov hov toks.length toks le_rfl

theorem splitter_overlap_and_coverage_witness :
    (∀ i, i + 1 < ([[10, 20, 30], [30, 40, 50]] : List (List Nat)).length →
        (([[10, 20, 30], [30, 40, 50]] : List (List Nat)).getD i []).length = 3 ∧
        1 ≤ (([[10, 20, 30], [30, 40, 50]] : List (List Nat)).getD (i + 1)
          []).length ∧
        (([[10, 20, 30], [30, 40, 50]] : List (List Nat)).getD i []).drop
            ((([[10, 20, 30], [30, 40, 50]] : List (List Nat)).getD i
              []).length - 1) =
          (([[10, 20, 30], [30, 40, 50]] : List (List Nat)).getD (i + 1)
            []).take 1) ∧
    (∀ x ∈ ([10, 20, 30, 40, 50] : List Nat),
      ∃ c ∈ ([[10, 20, 30], [30, 40, 50]] : List (List Nat)), x ∈ c) ∧
    (([[10, 20, 30], [30, 40, 50]] : List (List Nat)).map List.length).sum =
      ([10, 20, 30, 40, 50] : List Nat).length +
        (([[10, 20, 30], [30, 40, 50]] : List (List Nat)).length - 1) * 1 :=
  splitter_overlap_and_coverage 3 1 [10, 20, 30, 40, 50]
    [[10, 20, 30], [30, 40, 50]] rfl

/-- C3: splitting a 1000-token text with chunk_size 600 and chunk_overlap 90
yields exactly 2 chunks, the second starting 90 tokens before token 600
(at token 510); ingesting that document gives `count() = 3` (one root plus
two children) and `get_ref_doc_info(root_id)` returns the two child ids in
order. -/
theorem concrete_scenario_1000_600_90 (toks : List Nat)
    (h1000 : toks.length = 1000) (d : Nat) (meta : List (String × String)) :
    splitDocument 600 90 toks = .ok [toks.take 600, toks.drop 510] ∧
    ∃ s' ids,
      ingest { id := d, text := toks, metadata := meta }
          [toks.take 600, toks.drop 510] emptyStore = .ok (s', ids) ∧
      s'.count = 3 ∧
      s'.getRefDocInfo d = .ok [d + 1, d + 2] := by
  constructor
  · unfold splitDocument
    rw [if_neg (by omega)]
    rw [h1000]
    have hne : ¬toks.length ≤ 600 := by omega
    rw [show (1000 : Nat) = 999 + 1 from rfl]
    rw [splitterGo_step 600 90 999 toks hne]
    rw [show (600 : Nat) - 90 = 510 from rfl]
    rw [splitterGo_of_le 600 90 999 (toks.drop 510)
      (by rw [List.length_drop]; omega)]
  · refine ⟨ingestStore { id := d, text := toks, metadata := meta }
        [toks.take 600, toks.drop 510] emptyStore,
      ingestIds { id := d, text := toks, metadata := meta }
        [toks.take 600, toks.drop 510] emptyStore, rfl, ?_, ?_⟩
    · show (ingestStore _ _ emptyStore).count = 3
      simp [NodeStore.count, ingestStore, length_childNodes, emptyStore]
    · have hnot : ({ id := d, text := toks, metadata := meta } : Document).id ∉
          emptyStore.allIds := by
        simp [emptyStore, NodeStore.allIds]
      have hkeys : ∀ q ∈ emptyStore.refDocInfo, q.1 ∈ emptyStore.allIds := by
        simp [emptyStore]
      have hnew := getRefDocInfo_ingestStore_new
        { id := d, text := toks, metadata := meta }
        [toks.take 600, toks.drop 510] emptyStore hnot hkeys
      have hlist : (List.range
            ([toks.take 600, toks.drop 510] : List (List Nat)).length).map
          (fun i => ingestBase { id := d, text := toks, metadata := meta }
            emptyStore + i) = [d + 1, d + 2] := by
        have hb : ingestBase { id := d, text := toks, metadata := meta }
            emptyStore = d + 1 := by
          simp [ingestBase, emptyStore]
        rw [hb]
        norm_num [List.range_succ]
      rw [hlist] at hnew
      exact hnew

theorem concrete_scenario_1000_600_90_witness :
    splitDocument 600 90 (List.range 1000) =
        .ok [(List.range 1000).take 600, (List.range 1000).drop 510] ∧
    ∃ s' ids,
      ingest { id := 7, text := List.range 1000, metadata := [] }
          [(List.range 1000).take 600, (List.range 1000).drop 510]
          emptyStore = .ok (s', ids) ∧
      s'.count = 3 ∧
      s'.getRefDocInfo 7 = .ok [7 + 1, 7 + 2] :=
  concrete_scenario_1000_600_90 (List.range 1000) (by simp) 7 []

/-- C4: a successful `ingest` creates exactly one root node (SOURCE is
itself, no PARENT) and one child per chunk in chunk order; every child's
PARENT and SOURCE point at the root, PREVIOUS/NEXT link immediate siblings
(none at the ends), the document metadata is copied onto every child, and
the returned ids are the created node ids. -/
theorem ingest_creates_root_and_children (doc : Document)
    (chunks : List (List Nat)) (s s' : NodeStore) (ids : List Nat)
    (hne : chunks ≠ []) (h : ingest doc chunks s = .ok (s', ids)) :
    ∃ root children,
      s'.nodes = s.nodes ++ root :: children ∧
      root.id = doc.id ∧
      relTargets RelKind.source root = [root.id] ∧
      relTargets RelKind.parent root = [] ∧
      children.length = chunks.length ∧
      (∀ i, i < chunks.length →
        (children.getD i defaultNode).text = chunks.getD i [] ∧
        (children.getD i defaultNode).metadata = doc.metadata ∧
        relTargets RelKind.parent (children.getD i defaultNode) =
          [root.id] ∧
        relTargets RelKind.source (children.getD i defaultNode) =
          [root.id] ∧
        relTargets RelKind.previous (children.getD i defaultNode) =
          (if i = 0 then [] else [(children.getD (i - 1) defaultNode).id]) ∧
        relTargets RelKind.next (children.getD i defaultNode) =
          (if i + 1 = chunks.length then []
            else [(children.getD (i + 1) defaultNode).id])) ∧
      ids = root.id :: children.map (fun nd => nd.id) := by
  obtain ⟨hany, hs', hids⟩ := ingest_eq_ok doc chunks s s' ids h
  subst hs'
  subst hids
  refine ⟨mkRoot doc, childNodes doc (ingestBase doc s) chunks, rfl, rfl,
    rfl, rfl, length_childNodes doc _ chunks, ?_, rfl⟩
  intro i hi
  rw [childNodes_getD doc _ chunks i hi defaultNode]
  obtain ⟨ht1, ht2, ht3, ht4⟩ :=
    mkChild_targets doc (ingestBase doc s) chunks.length i (chunks.getD i [])
  refine ⟨rfl, rfl, ht2, ht1, ?_, ?_⟩
  · rw [ht3]
    by_cases h0 : i = 0
    · rw [if_pos h0, if_pos h0]
    · rw [if_neg h0, if_neg h0]
      rw [childNodes_getD doc _ chunks (i - 1) (by omega) defaultNode]
      rfl
  · rw [ht4]
    by_cases hlast : i + 1 = chunks.length
    · rw [if_pos hlast, if_pos hlast]
    · rw [if_neg hlast, if_neg hlast]
      rw [childNodes_getD doc _ chunks (i + 1) (by omega) defaultNode]
      rfl

theorem ingest_creates_root_and_children_witness :
    ∃ root children,
      (ingestStore sampleDoc [[10], [20]] emptyStore).nodes =
        emptyStore.nodes ++ root :: children ∧
      root.id = sampleDoc.id ∧
      relTargets RelKind.source root = [root.id] ∧
      relTargets RelKind.parent root = [] ∧
      children.length = ([[10], [20]] : List (List Nat)).length ∧
      (∀ i, i < ([[10], [20]] : List (List Nat)).length →
        (children.getD i defaultNode).text =
          ([[10], [20]] : List (List Nat)).getD i [] ∧
        (children.getD i defaultNode).metadata = sampleDoc.metadata ∧
        relTargets RelKind.parent (children.getD i defaultNode) =
          [root.id] ∧
        relTargets RelKind.source (children.getD i defaultNode) =
          [root.id] ∧
        relTargets RelKind.previous (children.getD i defaultNode) =
          (if i = 0 then [] else [(children.getD (i - 1) defaultNode).id]) ∧
        relTargets RelKind.next (children.getD i defaultNode) =
          (if i + 1 = ([[10], [20]] : List (List Nat)).length then []
            else [(children.getD (i + 1) defaultNode).id])) ∧
      ingestIds sampleDoc [[10], [20]] emptyStore =
        root.id :: children.map (fun nd => nd.id) :=
  ingest_creates_root_and_children sampleDoc [[10], [20]] emptyStore
    (ingestStore sampleDoc [[10], [20]] emptyStore)
    (ingestIds sampleDoc [[10], [20]] emptyStore) (by decide) rfl

/-- C6: after a successful `ingest` into a reachable store,
`get_ref_doc_info` on the document id returns the child node ids in exactly
chunk order (the i-th id resolves to the node carrying the i-th chunk); and
`get_ref_doc_info` on any id that is not a known root key fails with
NodeNotFound. -/
theorem refdoc_order_and_missing (s : NodeStore) (hs : Reachable s) :
    (∀ doc chunks s' ids, ingest doc chunks s = .ok (s', ids) →
      ∃ cids, s'.getRefDocInfo doc.id = .ok cids ∧
        cids.length = chunks.length ∧
        ∀ i, i < chunks.length →
          ∃ nd, s'.get (cids.getD i 0) = .ok nd ∧
            nd.text = chunks.getD i [] ∧ nd.ordinal = i + 1) ∧
    (∀ r, (∀ q ∈ s.refDocInfo, q.1 ≠ r) →
      s.getRefDocInfo r = .error .nodeNotFound) := by
  obtain ⟨hbound, hnodup, hrf, hrefdoc, hchild⟩ := Reachable_StoreInv s hs
  constructor
  · intro doc chunks s' ids h
    obtain ⟨hany, hs', hids⟩ := ingest_eq_ok doc chunks s s' ids h
    subst hs'
    have hnot : doc.id ∉ s.allIds := ingest_id_not_mem doc chunks s _ ids h
    refine ⟨(List.range chunks.length).map (fun i => ingestBase doc s + i),
      getRefDocInfo_ingestStore_new doc chunks s hnot
        (fun q hq => (hrefdoc q hq).1), by simp, ?_⟩
    intro i hi
    have hgetD : ((List.range chunks.length).map
        (fun j => ingestBase doc s + j)).getD i 0 = ingestBase doc s + i := by
      rw [List.getD_eq_getElem _ _ (by simpa using hi)]
      simp
    rw [hgetD]
    exact ⟨mkChild doc (ingestBase doc s) chunks.length i (chunks.getD i []),
      get_ingestStore_child doc chunks s i hi hbound, rfl, rfl⟩
  · intro r hr
    unfold NodeStore.getRefDocInfo
    have hnone : s.refDocInfo.find? (fun q => q.1 == r) = none := by
      rw [List.find?_eq_none]
      intro q hq
      simpa using hr q hq
    rw [hnone]

theorem refdoc_order_and_missing_witness :
    (∀ doc chunks s' ids,
      ingest doc chunks emptyStore = .ok (s', ids) →
      ∃ cids, s'.getRefDocInfo doc.id = .ok cids ∧
        cids.length = chunks.length ∧
        ∀ i, i < chunks.length →
          ∃ nd, s'.get (cids.getD i 0) = .ok nd ∧
            nd.text = chunks.getD i [] ∧ nd.ordinal = i + 1) ∧
    (∀ r, (∀ q ∈ emptyStore.refDocInfo, q.1 ≠ r) →
      emptyStore.getRefDocInfo r = .error .nodeNotFound) :=
  refdoc_order_and_missing emptyStore .empty

/-- C7: every reachable store satisfies referential integrity (no
relationship target is dangling); `load` of a manifest-valid snapshot whose
nodes violate the integrity check fails with SnapshotCorrupt; and any store
a successful `load` returns satisfies referential integrity. -/
theorem referential_integrity_everywhere (s : NodeStore) (hs : Reachable s)
    (dir : Dir) (snap : Snapshot) (hdir : dir.contents = some snap)
    (hman : manifestOk snap = true) :
    RefIntegrity s ∧
    (integrityOk snap.nodes = false →
      load dir = .error .snapshotCorrupt) ∧
    (∀ t, load dir = .ok t → RefIntegrity t) := by
  refine ⟨(Reachable_StoreInv s hs).2.2.1, ?_, ?_⟩
  · intro hbad
    simp [load, hdir, hman, hbad]
  · intro t ht
    simp only [load, hdir] at ht
    rw [hman] at ht
    cases hint : integrityOk snap.nodes with
    | false =>
        rw [hint] at ht
        simp at ht
    | true =>
        rw [hint] at ht
        simp at ht
        intro nd hnd q hq
        rw [← ht]
        have hmem := integrityOk_spec snap.nodes hint nd (by rw [← ht] at hnd; exact hnd) q hq
        simpa [NodeStore.allIds, ← ht] using hmem

theorem referential_integrity_everywhere_witness :
    RefIntegrity sampleStore ∧
    (integrityOk (serialize sampleStore).nodes = false →
      load { contents := some (serialize sampleStore), ioOk := true } =
        .error .snapshotCorrupt) ∧
    (∀ t, load { contents := some (serialize sampleStore), ioOk := true } =
        .ok t → RefIntegrity t) :=
  referential_integrity_everywhere sampleStore sampleStore_reachable
    { contents := some (serialize sampleStore), ioOk := true }
    (serialize sampleStore) rfl (by decide)

/-- C10: in a reachable store (and in any store holding the same nodes and
ref-doc mapping, such as one reconstructed by `load`), every child node has
exactly one SOURCE relationship entry, its target is a ref-doc root, and
`get_ref_doc_info` on that target returns a node-id list containing the
child's own id — so the notebook's SOURCE-then-ref-doc traversal always
recovers a list including the starting node. -/
theorem child_source_traversal (s : NodeStore) (hs : Reachable s)
    (nd : Node) (hnd : nd ∈ s.nodes) (hp : hasParent nd = true)
    (t : NodeStore) (hnodes : t.nodes = s.nodes)
    (hrd : t.refDocInfo = s.refDocInfo) :
    ∃ r cids,
      (nd.relationships.filter (fun q => q.1 == RelKind.source)).length =
        1 ∧
      relTargets RelKind.source nd = [r] ∧
      t.getRefDocInfo r = .ok cids ∧ nd.id ∈ cids := by
  obtain ⟨-, -, -, -, hchild⟩ := Reachable_StoreInv s hs
  obtain ⟨r, cids, h1, h2, h3⟩ := hchild nd hnd hp
  refine ⟨r, cids, ?_, h1, ?_, h3⟩
  · have hlen := congrArg List.length h1
    simpa [relTargets] using hlen
  · unfold NodeStore.getRefDocInfo at h2 ⊢
    rw [hrd]
    exact h2

theorem child_source_traversal_witness :
    ∃ r cids,
      ((mkChild sampleDoc 1 2 0 [10]).relationships.filter
        (fun q => q.1 == RelKind.source)).length = 1 ∧
      relTargets RelKind.source (mkChild sampleDoc 1 2 0 [10]) = [r] ∧
      sampleStore.getRefDocInfo r = .ok cids ∧
      (mkChild sampleDoc 1 2 0 [10]).id ∈ cids :=
  child_source_traversal sampleStore sampleStore_reachable
    (mkChild sampleDoc 1 2 0 [10]) (by decide) rfl sampleStore rfl rfl

end RagCore
